import Mathlib

/-!
# A verification model of the gitproc checkout-pool allocator

This file embeds the core of `src/api.ts` — the checkout pool allocator backed
by a SQLite table `checkout_metadata (checkout PRIMARY KEY, repo, pid,
timestamp, status)` — as pure Lean functions over an explicit store state, and
proves the allocator's functional and invariant properties.

The store is modelled as a list of rows (the table).  SQL point queries
(`SELECT ... WHERE checkout = ? / LIMIT 1`) become `List.find?`; `UPDATE ...
WHERE` becomes a `List.map` touching the matching rows; `DELETE ... WHERE`
becomes a `List.filter`; `INSERT` appends.  The JavaScript slot-number scan
(parseInt of the row name with the first occurrence of `checkout-` removed) is
embedded faithfully: JS replace with a string pattern replaces only the first
occurrence, and parseInt skips leading whitespace, accepts an optional sign and
reads the maximal run of leading decimal digits (returning NaN — here `none` —
when there is none).  Filesystem effects (git mirror, worktree) are modelled by a single
boolean `provisionOk` saying whether the provisioning step succeeds; the
database is the only state.
-/

namespace Gitproc

/-! ## Decimal strings: the embedding of JS `parseInt` and number printing -/

/-- The character for a single decimal digit. -/
def digitChar (r : Nat) : Char := Char.ofNat (48 + r)

/-- Decimal digits of `n`, least significant first.  The explicit fuel (any
bound above `n`) keeps the recursion structural, so the function reduces by
computation. -/
def natDigitsRev : Nat → Nat → List Char
  | 0, _ => []
  | fuel + 1, n =>
    if n < 10 then [digitChar n]
    else digitChar (n % 10) :: natDigitsRev fuel (n / 10)

/-- Decimal digits of `n`, most significant first (no leading zeros, `0 ↦ "0"`). -/
def natDigits (n : Nat) : List Char := (natDigitsRev (n + 1) n).reverse

/-- The numeric value of a list of decimal digit characters, as read left to
right by `parseInt`. -/
def digitsVal (ds : List Char) : Nat :=
  ds.foldl (fun a c => a * 10 + (c.toNat - 48)) 0

/-- Is `c` a decimal digit (codepoints 48–57)? -/
def isDigitC (c : Char) : Bool := 48 ≤ c.toNat && c.toNat ≤ 57

/-- Is `c` whitespace skipped by JS `parseInt`? -/
def isWsC (c : Char) : Bool :=
  c.toNat = 32 || c.toNat = 9 || c.toNat = 10 || c.toNat = 11 ||
    c.toNat = 12 || c.toNat = 13

/-- Read the maximal run of leading decimal digits; `none` when there is none
(the NaN case of `parseInt`). -/
def parseDigits (cs : List Char) : Option Nat :=
  let ds := cs.takeWhile isDigitC
  if ds.isEmpty then none else some (digitsVal ds)

/-- Sign handling of JS `parseInt`, after whitespace has been skipped. -/
def parseIntAfterWs : List Char → Option Int
  | [] => none
  | c :: rest =>
    if c = '-' then (parseDigits rest).map (fun v => -(v : Int))
    else if c = '+' then (parseDigits rest).map (fun v => (v : Int))
    else (parseDigits (c :: rest)).map (fun v => (v : Int))

/-- Embedding of JS `parseInt(s)` (radix 10): skip leading whitespace, accept
one optional sign, then read leading decimal digits. -/
def parseIntChars (cs : List Char) : Option Int :=
  parseIntAfterWs (cs.dropWhile isWsC)

/-- Embedding of JS number-to-string for integers (as used by the template
string `checkout-${nextNum}`). -/
def intChars (i : Int) : List Char :=
  if i < 0 then '-' :: natDigits i.natAbs else natDigits i.toNat

/-- `intChars` packaged as a `String`. -/
def intStr (i : Int) : String := String.mk (intChars i)

/-- Embedding of JS replace with a string pattern and empty replacement:
remove the first occurrence of `pat`, if any. -/
def replaceFirstChars (pat : List Char) : List Char → List Char
  | [] => []
  | c :: rest =>
    if pat.isPrefixOf (c :: rest) then (c :: rest).drop pat.length
    else c :: replaceFirstChars pat rest

/-! ### Round-trip lemmas for the decimal machinery -/

theorem digitChar_toNat {r : Nat} (h : r < 10) : (digitChar r).toNat = 48 + r := by
  interval_cases r <;> decide

theorem natDigitsRev_ne_nil : ∀ fuel n, n < fuel → natDigitsRev fuel n ≠ [] := by
  intro fuel n h
  cases fuel with
  | zero => omega
  | succ f =>
    rw [natDigitsRev]
    split <;> simp

theorem natDigits_ne_nil (n : Nat) : natDigits n ≠ [] := by
  have := natDigitsRev_ne_nil (n + 1) n (Nat.lt_succ_self n)
  simpa [natDigits] using this

theorem mem_natDigitsRev : ∀ fuel n c, n < fuel → c ∈ natDigitsRev fuel n →
    48 ≤ c.toNat ∧ c.toNat ≤ 57 := by
  intro fuel
  induction fuel with
  | zero =>
    intro n c h _
    omega
  | succ f ih =>
    intro n c h hc
    rw [natDigitsRev] at hc
    by_cases hn : n < 10
    · rw [if_pos hn] at hc
      simp at hc
      subst hc
      rw [digitChar_toNat hn]
      omega
    · rw [if_neg hn] at hc
      rcases List.mem_cons.mp hc with h1 | h2
      · subst h1
        rw [digitChar_toNat (Nat.mod_lt _ (by omega))]
        omega
      · exact ih (n / 10) c (by omega) h2

theorem mem_natDigits {n : Nat} {c : Char} (h : c ∈ natDigits n) :
    48 ≤ c.toNat ∧ c.toNat ≤ 57 := by
  exact mem_natDigitsRev (n + 1) n c (Nat.lt_succ_self n)
    (by simpa [natDigits] using h)

theorem digitsVal_append_one (ds : List Char) (c : Char) :
    digitsVal (ds ++ [c]) = digitsVal ds * 10 + (c.toNat - 48) := by
  simp [digitsVal, List.foldl_append]

theorem digitsVal_natDigitsRev : ∀ fuel n, n < fuel →
    digitsVal (natDigitsRev fuel n).reverse = n := by
  intro fuel
  induction fuel with
  | zero =>
    intro n h
    omega
  | succ f ih =>
    intro n h
    rw [natDigitsRev]
    by_cases hn : n < 10
    · rw [if_pos hn]
      simp [digitsVal, digitChar_toNat hn]
    · rw [if_neg hn, List.reverse_cons, digitsVal_append_one,
        ih (n / 10) (by omega), digitChar_toNat (Nat.mod_lt _ (by omega))]
      omega

theorem digitsVal_natDigits (n : Nat) : digitsVal (natDigits n) = n :=
  digitsVal_natDigitsRev (n + 1) n (Nat.lt_succ_self n)

theorem takeWhile_of_all {p : Char → Bool} {l : List Char}
    (h : ∀ c ∈ l, p c = true) : l.takeWhile p = l := by
  induction l with
  | nil => rfl
  | cons a t ih =>
    simp only [List.takeWhile_cons, h a (List.mem_cons_self a t), ih
      (fun c hc => h c (List.mem_cons_of_mem a hc))]
    simp

theorem parseDigits_natDigits (n : Nat) : parseDigits (natDigits n) = some n := by
  have hall : ∀ c ∈ natDigits n, isDigitC c = true := by
    intro c hc
    have := mem_natDigits hc
    simp [isDigitC]
    omega
  have hne := natDigits_ne_nil n
  simp [parseDigits, takeWhile_of_all hall, hne, digitsVal_natDigits]

theorem dropWhile_of_head {p : Char → Bool} {c : Char} {l : List Char}
    (h : p c = false) : (c :: l).dropWhile p = c :: l := by
  simp [List.dropWhile_cons, h]

/-- Round trip: `parseInt` reads back exactly the integer that was printed. -/
theorem parseIntChars_intChars (i : Int) : parseIntChars (intChars i) = some i := by
  by_cases hneg : i < 0
  · rw [intChars, if_pos hneg, parseIntChars]
    have hdw : (('-' :: natDigits i.natAbs).dropWhile isWsC) = '-' :: natDigits i.natAbs := by
      apply dropWhile_of_head
      decide
    rw [hdw]
    have hval : -((i.natAbs : Int)) = i := by omega
    simp only [parseIntAfterWs, if_pos rfl, parseDigits_natDigits, Option.map_some]
    exact congrArg _ hval
  · rw [intChars, if_neg hneg, parseIntChars]
    obtain ⟨c, rest, hcr⟩ : ∃ c rest, natDigits i.toNat = c :: rest := by
      cases hh : natDigits i.toNat with
      | nil => exact absurd hh (natDigits_ne_nil _)
      | cons c rest => exact ⟨c, rest, rfl⟩
    have hcmem : c ∈ natDigits i.toNat := by rw [hcr]; exact List.mem_cons_self _ _
    have hcdig := mem_natDigits hcmem
    rw [hcr]
    have hdw : ((c :: rest).dropWhile isWsC) = c :: rest := by
      apply dropWhile_of_head
      simp [isWsC]
      omega
    rw [hdw]
    have hc1 : ¬ c = '-' := by
      intro hc; subst hc; revert hcdig; decide
    have hc2 : ¬ c = '+' := by
      intro hc; subst hc; revert hcdig; decide
    rw [parseIntAfterWs, if_neg hc1, if_neg hc2, ← hcr, parseDigits_natDigits]
    have hval : ((i.toNat : Int)) = i := by omega
    simp [hval]

theorem replaceFirstChars_append (pat rest : List Char) :
    replaceFirstChars pat (pat ++ rest) = rest := by
  cases hp : pat ++ rest with
  | nil =>
    have h2 : rest = [] := by
      cases pat <;> simp_all
    rw [replaceFirstChars, h2]
  | cons c t =>
    rw [replaceFirstChars]
    have hpre : pat.isPrefixOf (c :: t) = true := by
      rw [← hp]
      exact List.isPrefixOf_iff_prefix.mpr ⟨rest, rfl⟩
    rw [if_pos hpre, ← hp, List.drop_left]

/-! ## Data model: the `checkout_metadata` table -/

/-- One row of the `checkout_metadata` table: `checkout` is the primary key
(slot name), `repo` the repository key, `pid` the lock owner, `timestamp` the
lock time, `status` the string `"free"` or `"locked"`. -/
structure Row where
  checkout : String
  repo : String
  pid : Option Int
  timestamp : Option String
  status : String
deriving DecidableEq, Repr

/-- The table, as an ordered list of rows (SQL `LIMIT 1` picks the first). -/
abbrev Store := List Row

/-- The error kinds the API surfaces (`throw new Error(...)` sites, plus the
zod validation of empty arguments). -/
inductive PoolError where
  | invalidArg
  | capacityExceeded
  | provisioningFailed
  | notFound
  | notLocked
deriving DecidableEq, Repr

/-- Result of a successful acquire: slot id and its directory path. -/
structure AcquireResult where
  id : String
  directory : String
deriving DecidableEq, Repr

/-- The pool directory `${HOME}/.gitproc_pool`. -/
def POOL_DIR (home : String) : String := home ++ "/.gitproc_pool"

/-! ## The operations of `src/api.ts` -/

/-- `SELECT COUNT(*) FROM checkout_metadata WHERE repo = ?`. -/
def countRepo (s : Store) (repo : String) : Nat :=
  (s.filter (fun r => r.repo == repo)).length

/-- The guard `maxCheckouts && maxCheckouts > 0 && currentCount >= maxCheckouts`
(JS: `undefined`, `0` and non-positive limits disable the check). -/
def capacityHit (s : Store) (repo : String) : Option Int → Bool
  | none => false
  | some k => decide (0 < k) && decide (k ≤ (countRepo s repo : Int))

/-- `SELECT checkout FROM checkout_metadata WHERE repo = ? AND status = free
LIMIT 1` (the free-slot query). -/
def findFreeRow (s : Store) (repo : String) : Option Row :=
  s.find? (fun r => r.repo == repo && r.status == "free")

/-- The numeric values scanned from all row names: parseInt of each name with
the first occurrence of `checkout-` removed, NaN filtered out. -/
def numsOf (s : Store) : List Int :=
  s.filterMap (fun r => parseIntChars (replaceFirstChars "checkout-".data r.checkout.data))

/-- `nums.length ? Math.max(...nums) + 1 : 1`. -/
def nextNumOf (s : Store) : Int :=
  match numsOf s with
  | [] => 1
  | v :: vs => vs.foldl max v + 1

/-- The freshly generated slot name `checkout-${nextNum}`. -/
def newNameOf (s : Store) : String := "checkout-" ++ intStr (nextNumOf s)

/-- `UPDATE checkout_metadata SET pid = ?, timestamp = ?, status = locked
WHERE checkout = ?`. -/
def lockRow (pid : Int) (now : String) (name : String) (s : Store) : Store :=
  s.map (fun r =>
    if r.checkout == name then
      { r with pid := some pid, timestamp := some now, status := "locked" }
    else r)

/-- Embedding of `acquireCheckout(repoArg, maxCheckouts)` with the repository
key already resolved (`repo`), the ambient process id and clock passed in, and
the git mirror/worktree provisioning step abstracted by `provisionOk`.
Returns the new store together with the outcome. -/
def acquireCheckout (home repo : String) (maxCheckouts : Option Int)
    (pid : Int) (now : String) (provisionOk : Bool) (s : Store) :
    Store × Except PoolError AcquireResult :=
  if repo = "" then (s, .error .invalidArg)
  else if capacityHit s repo maxCheckouts then (s, .error .capacityExceeded)
  else
    match findFreeRow s repo with
    | some row =>
      (lockRow pid now row.checkout s,
        .ok { id := row.checkout, directory := POOL_DIR home ++ "/" ++ row.checkout })
    | none =>
      let name := newNameOf s
      let s₁ := s ++ [{ checkout := name, repo := repo, pid := some pid,
                        timestamp := some now, status := "locked" : Row }]
      if provisionOk then
        (s₁, .ok { id := name, directory := POOL_DIR home ++ "/" ++ name })
      else
        (s₁.filter (fun r => !(r.checkout == name)), .error .provisioningFailed)

/-- `UPDATE checkout_metadata SET pid = NULL, timestamp = NULL, status = free
WHERE checkout = ?`. -/
def unlockRow (name : String) (s : Store) : Store :=
  s.map (fun r =>
    if r.checkout == name then
      { r with pid := none, timestamp := none, status := "free" }
    else r)

/-- Embedding of `releaseCheckout(checkout)`. -/
def releaseCheckout (name : String) (s : Store) : Store × Except PoolError Unit :=
  if name = "" then (s, .error .invalidArg)
  else
    match s.find? (fun r => r.checkout == name) with
    | none => (s, .error .notFound)
    | some row =>
      if row.status == "locked" then (unlockRow name s, .ok ())
      else (s, .error .notLocked)

/-- Embedding of `removeCheckout(checkout)`; the worktree teardown always
falls back to `rm -rf` on failure, so only the row deletion is state. -/
def removeCheckout (name : String) (s : Store) : Store × Except PoolError Unit :=
  if name = "" then (s, .error .invalidArg)
  else if s.any (fun r => r.checkout == name) then
    (s.filter (fun r => !(r.checkout == name)), .ok ())
  else (s, .error .notFound)

/-- Embedding of `listCheckouts()`: every row, fields normalized. -/
def listCheckouts (s : Store) : List Row :=
  s.map (fun r =>
    { checkout := r.checkout, repo := r.repo, pid := r.pid,
      timestamp := r.timestamp, status := r.status })

/-! ## Store predicates -/

/-- Names are pairwise distinct (the PRIMARY KEY constraint). -/
def uniqNames (s : Store) : Prop := (s.map (·.checkout)).Nodup

instance (s : Store) : Decidable (uniqNames s) := by
  unfold uniqNames
  infer_instance

/-- The names of the rows whose status is `"locked"`. -/
def lockedNames (s : Store) : List String :=
  (s.filter (fun r => r.status == "locked")).map (·.checkout)

/-- The row invariant of the spec's data model: unique names, `locked` rows
carry owner and timestamp, `free` rows carry neither. -/
def Inv (s : Store) : Prop :=
  uniqNames s ∧ ∀ r ∈ s,
    (r.status = "locked" → r.pid.isSome ∧ r.timestamp.isSome) ∧
    (r.status = "free" → r.pid = none ∧ r.timestamp = none)

instance (s : Store) : Decidable (Inv s) := by
  unfold Inv
  infer_instance

/-! ## The spec's slot-name pattern, for comparison with the code's scan -/

/-- Modelled from the spec's words: a name matching the `slot-<n>` pattern
(here with the code's `checkout-` prefix) and its numeric suffix `n`;
`none` when the name does not match the pattern. -/
def specSlotNum (name : String) : Option Nat :=
  let pat := "checkout-".data
  if pat.isPrefixOf name.data then
    let ds := name.data.drop pat.length
    if ds ≠ [] ∧ ds.all isDigitC then some (digitsVal ds) else none
  else none

/-- Modelled from the spec's words: `max(n) + 1` over names matching the
`slot-<n>` pattern, starting at 1 if none exist. -/
def specNextNum (s : Store) : Nat :=
  match s.filterMap (fun r => specSlotNum r.checkout) with
  | [] => 1
  | v :: vs => vs.foldl max v + 1

/-! ## Freshness of the generated slot name -/

theorem le_foldl_max (l : List Int) (a : Int) : a ≤ l.foldl max a := by
  induction l generalizing a with
  | nil => simp
  | cons b t ih =>
    simp only [List.foldl_cons]
    exact le_trans (le_max_left a b) (ih (max a b))

theorem mem_le_foldl_max {l : List Int} {x : Int} (a : Int) (h : x ∈ l) :
    x ≤ l.foldl max a := by
  induction l generalizing a with
  | nil => simp at h
  | cons b t ih =>
    simp only [List.foldl_cons]
    rcases List.mem_cons.mp h with rfl | h2
    · exact le_trans (le_max_right a x) (le_foldl_max t (max a x))
    · exact ih (max a b) h2

theorem lt_nextNumOf {s : Store} {v : Int} (h : v ∈ numsOf s) : v < nextNumOf s := by
  unfold nextNumOf
  cases hn : numsOf s with
  | nil => rw [hn] at h; exact absurd h (List.not_mem_nil v)
  | cons v0 vs =>
    rw [hn] at h
    show v < vs.foldl max v0 + 1
    rcases List.mem_cons.mp h with rfl | h2
    · have := le_foldl_max vs v
      omega
    · have := mem_le_foldl_max v0 h2
      omega

/-- The code's lenient scan reads the generated name back as exactly the
generated number. -/
theorem parseNum_newName (s : Store) :
    parseIntChars (replaceFirstChars "checkout-".data (newNameOf s).data) =
      some (nextNumOf s) := by
  rw [newNameOf, String.data_append]
  have hdata : (intStr (nextNumOf s)).data = intChars (nextNumOf s) := rfl
  rw [hdata, replaceFirstChars_append, parseIntChars_intChars]

/-- The generated name is fresh: no row of any store can carry it, whatever
its name looks like. -/
theorem newNameOf_fresh {s : Store} {r : Row} (hr : r ∈ s) :
    r.checkout ≠ newNameOf s := by
  intro heq
  have hv : parseIntChars (replaceFirstChars "checkout-".data r.checkout.data) =
      some (nextNumOf s) := by
    rw [heq]; exact parseNum_newName s
  have hmem : nextNumOf s ∈ numsOf s := by
    rw [numsOf, List.mem_filterMap]
    exact ⟨r, hr, hv⟩
  exact absurd (lt_nextNumOf hmem) (lt_irrefl _)

theorem filter_out_fresh {s : Store} {nm : String}
    (h : ∀ r ∈ s, r.checkout ≠ nm) (row : Row) (hrow : row.checkout = nm) :
    (s ++ [row]).filter (fun r => !(r.checkout == nm)) = s := by
  rw [List.filter_append]
  have h1 : s.filter (fun r => !(r.checkout == nm)) = s := by
    apply List.filter_eq_self.mpr
    intro a ha
    simp [h a ha]
  have h2 : [row].filter (fun r => !(r.checkout == nm)) = ([] : Store) := by
    simp [List.filter, hrow]
  rw [h1, h2, List.append_nil]

/-! ## Store lemmas -/

theorem uniq_eq_of_name {s : Store} (hu : uniqNames s) {r r' : Row}
    (hr : r ∈ s) (hr' : r' ∈ s) (hn : r.checkout = r'.checkout) : r = r' := by
  induction s with
  | nil => simp at hr
  | cons a t ih =>
    rw [uniqNames, List.map_cons, List.nodup_cons] at hu
    rcases List.mem_cons.mp hr with rfl | h1 <;>
      rcases List.mem_cons.mp hr' with h0 | h2
    · rw [h0]
    · exact absurd (by rw [hn]; exact List.mem_map_of_mem (·.checkout) h2) hu.1
    · rw [h0] at hn
      exact absurd (by rw [← hn]; exact List.mem_map_of_mem (·.checkout) h1) hu.1
    · exact ih hu.2 h1 h2

theorem mem_lockedNames {s : Store} {n : String} :
    n ∈ lockedNames s ↔ ∃ r ∈ s, r.status = "locked" ∧ r.checkout = n := by
  simp only [lockedNames, List.mem_map, List.mem_filter, beq_iff_eq]
  constructor
  · rintro ⟨r, ⟨h1, h2⟩, h3⟩
    exact ⟨r, h1, h2, h3⟩
  · rintro ⟨r, h1, h2, h3⟩
    exact ⟨r, ⟨h1, h2⟩, h3⟩

theorem findFreeRow_some {s : Store} {repo : String} {row : Row}
    (h : findFreeRow s repo = some row) :
    row ∈ s ∧ row.repo = repo ∧ row.status = "free" := by
  refine ⟨List.mem_of_find?_eq_some h, ?_⟩
  have := List.find?_some h
  simp only [Bool.and_eq_true, beq_iff_eq] at this
  exact this

theorem findFreeRow_of_free {s : Store} {repo : String} {r : Row}
    (hr : r ∈ s) (hrepo : r.repo = repo) (hst : r.status = "free") :
    ∃ row, findFreeRow s repo = some row := by
  have : (s.find? (fun r => r.repo == repo && r.status == "free")).isSome := by
    rw [List.find?_isSome]
    exact ⟨r, hr, by simp [hrepo, hst]⟩
  rw [findFreeRow]
  exact Option.isSome_iff_exists.mp this

/-! ## Path lemmas for `acquireCheckout` -/

/-- The fresh row inserted by the new-slot path. -/
def newRowOf (repo : String) (pid : Int) (now : String) (s : Store) : Row :=
  { checkout := newNameOf s, repo := repo, pid := some pid,
    timestamp := some now, status := "locked" }

theorem acquire_invalid_eq {home : String} {m : Option Int} {pid : Int}
    {now : String} {ok : Bool} {s : Store} :
    acquireCheckout home "" m pid now ok s = (s, .error .invalidArg) := by
  simp [acquireCheckout]

theorem acquire_capacity_eq {home repo : String} {m : Option Int} {pid : Int}
    {now : String} {ok : Bool} {s : Store}
    (hrepo : repo ≠ "") (hcap : capacityHit s repo m = true) :
    acquireCheckout home repo m pid now ok s = (s, .error .capacityExceeded) := by
  simp [acquireCheckout, hrepo, hcap]

theorem acquire_reuse_eq {home repo : String} {m : Option Int} {pid : Int}
    {now : String} {ok : Bool} {s : Store} {row : Row}
    (hrepo : repo ≠ "") (hcap : capacityHit s repo m = false)
    (hfind : findFreeRow s repo = some row) :
    acquireCheckout home repo m pid now ok s =
      (lockRow pid now row.checkout s,
        .ok { id := row.checkout,
              directory := POOL_DIR home ++ "/" ++ row.checkout }) := by
  simp [acquireCheckout, hrepo, hcap, hfind]

theorem acquire_new_ok_eq {home repo : String} {m : Option Int} {pid : Int}
    {now : String} {s : Store}
    (hrepo : repo ≠ "") (hcap : capacityHit s repo m = false)
    (hfind : findFreeRow s repo = none) :
    acquireCheckout home repo m pid now true s =
      (s ++ [newRowOf repo pid now s],
        .ok { id := newNameOf s,
              directory := POOL_DIR home ++ "/" ++ newNameOf s }) := by
  simp [acquireCheckout, hrepo, hcap, hfind, newRowOf]

theorem acquire_new_fail_eq {home repo : String} {m : Option Int} {pid : Int}
    {now : String} {s : Store}
    (hrepo : repo ≠ "") (hcap : capacityHit s repo m = false)
    (hfind : findFreeRow s repo = none) :
    acquireCheckout home repo m pid now false s =
      (s, .error .provisioningFailed) := by
  simp only [acquireCheckout, if_neg hrepo, hcap, Bool.false_eq_true, if_false,
    hfind, Bool.not_eq_true]
  rw [filter_out_fresh (fun r hr => newNameOf_fresh hr) _ rfl]

/-- Inversion: everything a successful acquire tells us. -/
theorem acquire_ok_inv {home repo : String} {m : Option Int} {pid : Int}
    {now : String} {ok : Bool} {s s' : Store} {res : AcquireResult}
    (h : acquireCheckout home repo m pid now ok s = (s', .ok res)) :
    repo ≠ "" ∧ capacityHit s repo m = false ∧
      ((∃ row, findFreeRow s repo = some row ∧ res.id = row.checkout ∧
          s' = lockRow pid now row.checkout s ∧
          res.directory = POOL_DIR home ++ "/" ++ row.checkout) ∨
        (findFreeRow s repo = none ∧ ok = true ∧ res.id = newNameOf s ∧
          s' = s ++ [newRowOf repo pid now s] ∧
          res.directory = POOL_DIR home ++ "/" ++ newNameOf s)) := by
  by_cases hrepo : repo = ""
  · subst hrepo
    rw [acquire_invalid_eq] at h
    simp at h
  · by_cases hcap : capacityHit s repo m = true
    · rw [acquire_capacity_eq hrepo hcap] at h
      simp at h
    · rw [Bool.not_eq_true] at hcap
      refine ⟨hrepo, hcap, ?_⟩
      cases hfind : findFreeRow s repo with
      | some row =>
        rw [acquire_reuse_eq hrepo hcap hfind] at h
        obtain ⟨h1, h2⟩ := Prod.mk.injEq .. ▸ h
        cases h2
        · exact Or.inl ⟨row, rfl, rfl, h1.symm, rfl⟩
      | none =>
        cases ok with
        | true =>
          rw [acquire_new_ok_eq hrepo hcap hfind] at h
          obtain ⟨h1, h2⟩ := Prod.mk.injEq .. ▸ h
          cases h2
          · exact Or.inr ⟨rfl, rfl, rfl, h1.symm, rfl⟩
        | false =>
          rw [acquire_new_fail_eq hrepo hcap hfind] at h
          simp at h

/-- A failed acquire leaves the store unchanged (including the compensating
delete after a provisioning failure). -/
theorem acquire_error_state {home repo : String} {m : Option Int} {pid : Int}
    {now : String} {ok : Bool} {s s' : Store} {e : PoolError}
    (h : acquireCheckout home repo m pid now ok s = (s', .error e)) : s' = s := by
  by_cases hrepo : repo = ""
  · subst hrepo
    rw [acquire_invalid_eq] at h
    exact (Prod.mk.injEq .. ▸ h).1.symm
  · by_cases hcap : capacityHit s repo m = true
    · rw [acquire_capacity_eq hrepo hcap] at h
      exact (Prod.mk.injEq .. ▸ h).1.symm
    · rw [Bool.not_eq_true] at hcap
      cases hfind : findFreeRow s repo with
      | some row =>
        rw [acquire_reuse_eq hrepo hcap hfind] at h
        simp at h
      | none =>
        cases ok with
        | true =>
          rw [acquire_new_ok_eq hrepo hcap hfind] at h
          simp at h
        | false =>
          rw [acquire_new_fail_eq hrepo hcap hfind] at h
          exact (Prod.mk.injEq .. ▸ h).1.symm

/-! ## Path lemmas for `releaseCheckout` and `removeCheckout` -/

theorem release_notFound_eq {n : String} {s : Store} (hn : n ≠ "")
    (h : s.find? (fun r => r.checkout == n) = none) :
    releaseCheckout n s = (s, .error .notFound) := by
  simp [releaseCheckout, hn, h]

theorem release_notLocked_eq {n : String} {s : Store} {row : Row} (hn : n ≠ "")
    (h : s.find? (fun r => r.checkout == n) = some row)
    (hst : row.status ≠ "locked") :
    releaseCheckout n s = (s, .error .notLocked) := by
  simp [releaseCheckout, hn, h, hst]

theorem release_ok_eq {n : String} {s : Store} {row : Row} (hn : n ≠ "")
    (h : s.find? (fun r => r.checkout == n) = some row)
    (hst : row.status = "locked") :
    releaseCheckout n s = (unlockRow n s, .ok ()) := by
  simp [releaseCheckout, hn, h, hst]

theorem release_ok_inv {n : String} {s s' : Store}
    (h : releaseCheckout n s = (s', .ok ())) :
    ∃ row, n ≠ "" ∧ s.find? (fun r => r.checkout == n) = some row ∧
      row.status = "locked" ∧ s' = unlockRow n s := by
  by_cases hn : n = ""
  · subst hn
    rw [releaseCheckout, if_pos rfl] at h
    simp at h
  · cases hfind : s.find? (fun r => r.checkout == n) with
    | none =>
      rw [release_notFound_eq hn hfind] at h
      simp at h
    | some row =>
      by_cases hst : row.status = "locked"
      · rw [release_ok_eq hn hfind hst] at h
        refine ⟨row, hn, rfl, hst, ?_⟩
        exact ((Prod.mk.injEq .. ▸ h).1).symm
      · rw [release_notLocked_eq hn hfind hst] at h
        simp at h

theorem release_error_state {n : String} {s s' : Store} {e : PoolError}
    (h : releaseCheckout n s = (s', .error e)) : s' = s := by
  by_cases hn : n = ""
  · subst hn
    rw [releaseCheckout, if_pos rfl] at h
    exact (Prod.mk.injEq .. ▸ h).1.symm
  · cases hfind : s.find? (fun r => r.checkout == n) with
    | none =>
      rw [release_notFound_eq hn hfind] at h
      exact (Prod.mk.injEq .. ▸ h).1.symm
    | some row =>
      by_cases hst : row.status = "locked"
      · rw [release_ok_eq hn hfind hst] at h
        simp at h
      · rw [release_notLocked_eq hn hfind hst] at h
        exact (Prod.mk.injEq .. ▸ h).1.symm

theorem remove_ok_eq {n : String} {s : Store} (hn : n ≠ "")
    (h : s.any (fun r => r.checkout == n) = true) :
    removeCheckout n s = (s.filter (fun r => !(r.checkout == n)), .ok ()) := by
  simp [removeCheckout, hn, h]

theorem remove_notFound_eq {n : String} {s : Store} (hn : n ≠ "")
    (h : s.any (fun r => r.checkout == n) = false) :
    removeCheckout n s = (s, .error .notFound) := by
  simp [removeCheckout, hn, h]

/-! ## Effect of the operations on names, locked names and the row invariant -/

theorem map_names_of_preserve {f : Row → Row}
    (hf : ∀ r, (f r).checkout = r.checkout) (s : Store) :
    (s.map f).map (·.checkout) = s.map (·.checkout) := by
  rw [List.map_map]
  apply List.map_congr_left
  intro r _
  exact hf r

theorem lockRow_preserves_checkout (pid : Int) (now nm : String) (r : Row) :
    ((fun r => if r.checkout == nm then
      { r with pid := some pid, timestamp := some now, status := "locked" }
      else r) r).checkout = r.checkout := by
  by_cases h : r.checkout == nm <;> simp [h]

theorem unlockRow_preserves_checkout (nm : String) (r : Row) :
    ((fun r => if r.checkout == nm then
      { r with pid := none, timestamp := none, status := "free" }
      else r) r).checkout = r.checkout := by
  by_cases h : r.checkout == nm <;> simp [h]

theorem uniqNames_lockRow {s : Store} (hu : uniqNames s) (pid : Int)
    (now nm : String) : uniqNames (lockRow pid now nm s) := by
  rw [uniqNames, lockRow, map_names_of_preserve (lockRow_preserves_checkout pid now nm)]
  exact hu

theorem uniqNames_unlockRow {s : Store} (hu : uniqNames s) (nm : String) :
    uniqNames (unlockRow nm s) := by
  rw [uniqNames, unlockRow, map_names_of_preserve (unlockRow_preserves_checkout nm)]
  exact hu

theorem uniqNames_append_fresh {s : Store} {row : Row} (hu : uniqNames s)
    (hfresh : ∀ r ∈ s, r.checkout ≠ row.checkout) :
    uniqNames (s ++ [row]) := by
  rw [uniqNames, List.map_append, List.map_singleton]
  rw [List.nodup_append]
  refine ⟨hu, List.nodup_singleton _, ?_⟩
  intro x hx hx'
  obtain ⟨r, hr, rfl⟩ := List.mem_map.mp hx
  simp at hx'
  exact hfresh r hr hx'

theorem uniqNames_filter {s : Store} (hu : uniqNames s) (p : Row → Bool) :
    uniqNames (s.filter p) := by
  rw [uniqNames]
  exact List.Nodup.sublist (List.Sublist.map _ (List.filter_sublist s)) hu

theorem mem_lockedNames_map {s : Store} {f : Row → Row} {x : String} :
    x ∈ lockedNames (s.map f) ↔
      ∃ r ∈ s, (f r).status = "locked" ∧ (f r).checkout = x := by
  rw [mem_lockedNames]
  constructor
  · rintro ⟨r', hr', h1, h2⟩
    obtain ⟨r, hr, rfl⟩ := List.mem_map.mp hr'
    exact ⟨r, hr, h1, h2⟩
  · rintro ⟨r, hr, h1, h2⟩
    exact ⟨f r, List.mem_map_of_mem f hr, h1, h2⟩

theorem mem_lockedNames_append {s : Store} {row : Row} {x : String} :
    x ∈ lockedNames (s ++ [row]) ↔
      x ∈ lockedNames s ∨ (row.status = "locked" ∧ x = row.checkout) := by
  rw [mem_lockedNames, mem_lockedNames]
  constructor
  · rintro ⟨r, hr, h1, h2⟩
    rcases List.mem_append.mp hr with h | h
    · exact Or.inl ⟨r, h, h1, h2⟩
    · simp at h
      subst h
      exact Or.inr ⟨h1, h2.symm⟩
  · rintro (⟨r, hr, h1, h2⟩ | ⟨h1, h2⟩)
    · exact ⟨r, List.mem_append_left _ hr, h1, h2⟩
    · exact ⟨row, List.mem_append_right _ (by simp), h1, h2.symm⟩

/-- A successful acquire returns a name that was not locked before, and the
locked set afterwards is the old one plus exactly that name. -/
theorem acquire_ok_locked {home repo : String} {m : Option Int} {pid : Int}
    {now : String} {ok : Bool} {s s' : Store} {res : AcquireResult}
    (hu : uniqNames s)
    (h : acquireCheckout home repo m pid now ok s = (s', .ok res)) :
    uniqNames s' ∧ res.id ∉ lockedNames s ∧
      ∀ x, x ∈ lockedNames s' ↔ x = res.id ∨ x ∈ lockedNames s := by
  obtain ⟨-, -, hcase⟩ := acquire_ok_inv h
  rcases hcase with ⟨row, hfind, hid, hs', -⟩ | ⟨-, -, hid, hs', -⟩
  · obtain ⟨hmem, -, hfree⟩ := findFreeRow_some hfind
    have hnotlk : row.checkout ∉ lockedNames s := by
      rw [mem_lockedNames]
      rintro ⟨r, hr, hlk, hnm⟩
      have := uniq_eq_of_name hu hr hmem hnm
      subst this
      rw [hfree] at hlk
      exact absurd hlk (by decide)
    subst hs'
    rw [hid]
    refine ⟨uniqNames_lockRow hu pid now row.checkout, hnotlk, ?_⟩
    intro x
    rw [lockRow, mem_lockedNames_map]
    constructor
    · rintro ⟨r, hr, h1, h2⟩
      by_cases hb : r.checkout = row.checkout
      · simp [hb] at h2
        exact Or.inl h2.symm
      · simp [hb] at h1 h2
        exact Or.inr (mem_lockedNames.mpr ⟨r, hr, h1, h2⟩)
    · rintro (rfl | hx)
      · exact ⟨row, hmem, by simp, by simp⟩
      · obtain ⟨r, hr, h1, h2⟩ := mem_lockedNames.mp hx
        have hne : r.checkout ≠ row.checkout := by
          intro hnm
          have := uniq_eq_of_name hu hr hmem hnm
          subst this
          rw [hfree] at h1
          exact absurd h1 (by decide)
        have hxne : x ≠ row.checkout := h2 ▸ hne
        exact ⟨r, hr, by simp [hne, hxne, h1], by simp [hne, hxne, h2]⟩
  · have hfresh : ∀ r ∈ s, r.checkout ≠ newNameOf s := fun r hr => newNameOf_fresh hr
    have hnotlk : newNameOf s ∉ lockedNames s := by
      rw [mem_lockedNames]
      rintro ⟨r, hr, -, hnm⟩
      exact hfresh r hr hnm
    subst hs'
    rw [hid]
    refine ⟨uniqNames_append_fresh hu hfresh, hnotlk, ?_⟩
    intro x
    rw [mem_lockedNames_append]
    constructor
    · rintro (hx | ⟨-, rfl⟩)
      · exact Or.inr hx
      · exact Or.inl rfl
    · rintro (rfl | hx)
      · exact Or.inr ⟨rfl, rfl⟩
      · exact Or.inl hx

/-- A successful release frees a previously locked name and removes exactly it
from the locked set. -/
theorem release_ok_locked {n : String} {s s' : Store}
    (hu : uniqNames s) (h : releaseCheckout n s = (s', .ok ())) :
    uniqNames s' ∧ n ∈ lockedNames s ∧
      ∀ x, x ∈ lockedNames s' ↔ x ≠ n ∧ x ∈ lockedNames s := by
  obtain ⟨row, -, hfind, hlk, hs'⟩ := release_ok_inv h
  have hmem := List.mem_of_find?_eq_some hfind
  have hnm : row.checkout = n := by
    have hb := List.find?_some hfind
    simpa using hb
  subst hs'
  refine ⟨uniqNames_unlockRow hu n, mem_lockedNames.mpr ⟨row, hmem, hlk, hnm⟩, ?_⟩
  intro x
  rw [unlockRow, mem_lockedNames_map]
  constructor
  · rintro ⟨r, hr, h1, h2⟩
    by_cases hb : r.checkout = n
    · simp [hb] at h1
    · simp [hb] at h1 h2
      subst h2
      exact ⟨hb, mem_lockedNames.mpr ⟨r, hr, h1, rfl⟩⟩
  · rintro ⟨hne, hx⟩
    obtain ⟨r, hr, h1, h2⟩ := mem_lockedNames.mp hx
    have hrne : r.checkout ≠ n := by
      rw [h2]
      exact hne
    exact ⟨r, hr, by simp [hrne, hne, h1], by simp [hrne, hne, h2]⟩

/-! ## Traces of acquire/release calls against one repository key -/

/-- One call in a trace: an `acquire` (with its limit, caller pid, clock and
provisioning outcome) or a `release` of a slot name. -/
inductive Op where
  | acq (maxCheckouts : Option Int) (pid : Int) (now : String) (provisionOk : Bool)
  | rel (name : String)

/-- Run a list of calls against repository key `repo`, starting from store `s`,
tracking `held`: the names returned by `acquire` calls not yet matched by a
successful `release`. -/
def runOps (home repo : String) : List Op → Store → List String → Store × List String
  | [], s, held => (s, held)
  | Op.acq m p t ok :: rest, s, held =>
    match acquireCheckout home repo m p t ok s with
    | (s', Except.ok res) => runOps home repo rest s' (res.id :: held)
    | (s', Except.error _) => runOps home repo rest s' held
  | Op.rel n :: rest, s, held =>
    match releaseCheckout n s with
    | (s', Except.ok _) => runOps home repo rest s' (held.erase n)
    | (s', Except.error _) => runOps home repo rest s' held

/-- The trace invariant: unique names, no double-held name, and the held set
is exactly the locked set. -/
def TraceInv (s : Store) (held : List String) : Prop :=
  uniqNames s ∧ held.Nodup ∧ ∀ x, x ∈ held ↔ x ∈ lockedNames s

theorem traceInv_acquire_ok {home repo : String} {m : Option Int} {pid : Int}
    {now : String} {ok : Bool} {s s' : Store} {res : AcquireResult}
    {held : List String} (hinv : TraceInv s held)
    (h : acquireCheckout home repo m pid now ok s = (s', .ok res)) :
    TraceInv s' (res.id :: held) := by
  obtain ⟨hu, hnd, hmem⟩ := hinv
  obtain ⟨hu', hnotlk, hlk⟩ := acquire_ok_locked hu h
  refine ⟨hu', ?_, ?_⟩
  · rw [List.nodup_cons]
    exact ⟨fun hx => hnotlk ((hmem res.id).mp hx), hnd⟩
  · intro x
    rw [List.mem_cons, hlk x, hmem x]

theorem traceInv_release_ok {n : String} {s s' : Store} {held : List String}
    (hinv : TraceInv s held) (h : releaseCheckout n s = (s', .ok ())) :
    TraceInv s' (held.erase n) := by
  obtain ⟨hu, hnd, hmem⟩ := hinv
  obtain ⟨hu', -, hlk⟩ := release_ok_locked hu h
  refine ⟨hu', hnd.erase n, ?_⟩
  intro x
  rw [hnd.mem_erase_iff, hlk x, hmem x]

theorem runOps_traceInv (home repo : String) (ops : List Op) :
    ∀ s held, TraceInv s held →
      TraceInv (runOps home repo ops s held).1 (runOps home repo ops s held).2 := by
  induction ops with
  | nil => exact fun s held h => h
  | cons op rest ih =>
    intro s held h
    cases op with
    | acq m p t ok =>
      cases hstep : acquireCheckout home repo m p t ok s with
      | mk s' e =>
        cases e with
        | ok res =>
          have h' := traceInv_acquire_ok h hstep
          have hred : runOps home repo (Op.acq m p t ok :: rest) s held =
              runOps home repo rest s' (res.id :: held) := by
            rw [runOps, hstep]
          rw [hred]
          exact ih s' (res.id :: held) h'
        | error err =>
          have hs : s' = s := acquire_error_state hstep
          have hred : runOps home repo (Op.acq m p t ok :: rest) s held =
              runOps home repo rest s' held := by
            rw [runOps, hstep]
          rw [hred, hs]
          exact ih s held h
    | rel n =>
      cases hstep : releaseCheckout n s with
      | mk s' e =>
        cases e with
        | ok u =>
          cases u
          have h' := traceInv_release_ok h hstep
          have hred : runOps home repo (Op.rel n :: rest) s held =
              runOps home repo rest s' (held.erase n) := by
            rw [runOps, hstep]
          rw [hred]
          exact ih s' (held.erase n) h'
        | error err =>
          have hs : s' = s := release_error_state hstep
          have hred : runOps home repo (Op.rel n :: rest) s held =
              runOps home repo rest s' held := by
            rw [runOps, hstep]
          rw [hred, hs]
          exact ih s held h

/-! ## Row invariant and repository-key stability -/

/-- Rows of `s` and `s'` with the same name carry the same repository key. -/
def repoStable (s s' : Store) : Prop :=
  ∀ r ∈ s, ∀ r' ∈ s', r.checkout = r'.checkout → r.repo = r'.repo

theorem repoStable_self {s : Store} (hu : uniqNames s) : repoStable s s := by
  intro r hr r' hr' hn
  rw [uniq_eq_of_name hu hr hr' hn]

theorem repoStable_map {s : Store} (hu : uniqNames s) {f : Row → Row}
    (hname : ∀ r, (f r).checkout = r.checkout)
    (hrepo : ∀ r, (f r).repo = r.repo) : repoStable s (s.map f) := by
  intro r hr r' hr' hn
  obtain ⟨r0, hr0, rfl⟩ := List.mem_map.mp hr'
  rw [hname] at hn
  rw [hrepo, uniq_eq_of_name hu hr hr0 hn]

theorem repoStable_append_fresh {s : Store} (hu : uniqNames s) {row : Row}
    (hfresh : ∀ r ∈ s, r.checkout ≠ row.checkout) :
    repoStable s (s ++ [row]) := by
  intro r hr r' hr' hn
  rcases List.mem_append.mp hr' with h | h
  · rw [uniq_eq_of_name hu hr h hn]
  · simp at h
    subst h
    exact absurd hn (hfresh r hr)

theorem repoStable_filter {s : Store} (hu : uniqNames s) (p : Row → Bool) :
    repoStable s (s.filter p) := by
  intro r hr r' hr' hn
  rw [uniq_eq_of_name hu hr (List.mem_filter.mp hr').1 hn]

theorem lockRow_preserves_repo (pid : Int) (now nm : String) (r : Row) :
    ((fun r => if r.checkout == nm then
      { r with pid := some pid, timestamp := some now, status := "locked" }
      else r) r).repo = r.repo := by
  by_cases h : r.checkout == nm <;> simp [h]

theorem unlockRow_preserves_repo (nm : String) (r : Row) :
    ((fun r => if r.checkout == nm then
      { r with pid := none, timestamp := none, status := "free" }
      else r) r).repo = r.repo := by
  by_cases h : r.checkout == nm <;> simp [h]

theorem Inv_lockRow {s : Store} (hinv : Inv s) (pid : Int) (now nm : String) :
    Inv (lockRow pid now nm s) := by
  obtain ⟨hu, hrows⟩ := hinv
  refine ⟨uniqNames_lockRow hu pid now nm, ?_⟩
  intro r' hr'
  rw [lockRow] at hr'
  obtain ⟨r, hr, rfl⟩ := List.mem_map.mp hr'
  by_cases hb : r.checkout = nm
  · have hb' : (r.checkout == nm) = true := by simp [hb]
    simp only [hb', if_true]
    constructor
    · intro _
      simp
    · intro hfree
      simp at hfree
  · have hb' : (r.checkout == nm) = false := by simp [hb]
    simp only [hb', Bool.false_eq_true, if_false]
    exact hrows r hr

theorem Inv_unlockRow {s : Store} (hinv : Inv s) (nm : String) :
    Inv (unlockRow nm s) := by
  obtain ⟨hu, hrows⟩ := hinv
  refine ⟨uniqNames_unlockRow hu nm, ?_⟩
  intro r' hr'
  rw [unlockRow] at hr'
  obtain ⟨r, hr, rfl⟩ := List.mem_map.mp hr'
  by_cases hb : r.checkout = nm
  · have hb' : (r.checkout == nm) = true := by simp [hb]
    simp only [hb', if_true]
    constructor
    · intro hlk
      simp at hlk
    · intro _
      simp
  · have hb' : (r.checkout == nm) = false := by simp [hb]
    simp only [hb', Bool.false_eq_true, if_false]
    exact hrows r hr

theorem Inv_append_new {s : Store} (hinv : Inv s) (repo : String) (pid : Int)
    (now : String) (hfresh : ∀ r ∈ s, r.checkout ≠ newNameOf s) :
    Inv (s ++ [newRowOf repo pid now s]) := by
  obtain ⟨hu, hrows⟩ := hinv
  refine ⟨uniqNames_append_fresh hu hfresh, ?_⟩
  intro r' hr'
  rcases List.mem_append.mp hr' with h | h
  · exact hrows r' h
  · simp at h
    subst h
    constructor
    · intro _
      simp [newRowOf]
    · intro hfree
      simp [newRowOf] at hfree

theorem Inv_filter {s : Store} (hinv : Inv s) (p : Row → Bool) :
    Inv (s.filter p) :=
  ⟨uniqNames_filter hinv.1 p, fun r hr => hinv.2 r (List.mem_filter.mp hr).1⟩

/-- Acquire preserves the row invariant and never rebinds a name to a new
repository key, whatever its outcome. -/
theorem acquire_preserves_inv {home repo : String} {m : Option Int} {pid : Int}
    {now : String} {ok : Bool} {s : Store} (hinv : Inv s) :
    Inv (acquireCheckout home repo m pid now ok s).1 ∧
      repoStable s (acquireCheckout home repo m pid now ok s).1 := by
  cases hp : acquireCheckout home repo m pid now ok s with
  | mk s' e =>
    cases e with
    | ok res =>
      obtain ⟨-, -, hcase⟩ := acquire_ok_inv hp
      rcases hcase with ⟨row, -, -, hs', -⟩ | ⟨-, -, -, hs', -⟩
      · subst hs'
        exact ⟨Inv_lockRow hinv pid now row.checkout,
          repoStable_map hinv.1 (lockRow_preserves_checkout pid now row.checkout)
            (lockRow_preserves_repo pid now row.checkout)⟩
      · subst hs'
        have hfresh : ∀ r ∈ s, r.checkout ≠ newNameOf s :=
          fun r hr => newNameOf_fresh hr
        exact ⟨Inv_append_new hinv repo pid now hfresh,
          repoStable_append_fresh hinv.1 hfresh⟩
    | error err =>
      have hs : s' = s := acquire_error_state hp
      subst hs
      exact ⟨hinv, repoStable_self hinv.1⟩

/-- Release preserves the row invariant and the repository binding. -/
theorem release_preserves_inv {n : String} {s : Store} (hinv : Inv s) :
    Inv (releaseCheckout n s).1 ∧ repoStable s (releaseCheckout n s).1 := by
  cases hp : releaseCheckout n s with
  | mk s' e =>
    cases e with
    | ok u =>
      cases u
      obtain ⟨row, -, -, -, hs'⟩ := release_ok_inv hp
      subst hs'
      exact ⟨Inv_unlockRow hinv n,
        repoStable_map hinv.1 (unlockRow_preserves_checkout n)
          (unlockRow_preserves_repo n)⟩
    | error err =>
      have hs : s' = s := release_error_state hp
      subst hs
      exact ⟨hinv, repoStable_self hinv.1⟩

/-- Remove preserves the row invariant and the repository binding. -/
theorem remove_preserves_inv {n : String} {s : Store} (hinv : Inv s) :
    Inv (removeCheckout n s).1 ∧ repoStable s (removeCheckout n s).1 := by
  by_cases hn : n = ""
  · subst hn
    rw [removeCheckout, if_pos rfl]
    exact ⟨hinv, repoStable_self hinv.1⟩
  · cases hany : s.any (fun r => r.checkout == n) with
    | true =>
      rw [remove_ok_eq hn hany]
      exact ⟨Inv_filter hinv _, repoStable_filter hinv.1 _⟩
    | false =>
      rw [remove_notFound_eq hn hany]
      exact ⟨hinv, repoStable_self hinv.1⟩

/-! ## Agreement of the code's lenient scan with the spec's pattern -/

theorem parseIntChars_digits {ds : List Char} (hne : ds ≠ [])
    (hall : ds.all isDigitC = true) :
    parseIntChars ds = some ((digitsVal ds : Nat) : Int) := by
  cases ds with
  | nil => exact absurd rfl hne
  | cons c rest =>
    have hc : isDigitC c = true := by
      have := List.all_eq_true.mp hall c (List.mem_cons_self c rest)
      exact this
    have hcn : 48 ≤ c.toNat ∧ c.toNat ≤ 57 := by
      simp [isDigitC] at hc
      omega
    rw [parseIntChars]
    have hdw : ((c :: rest).dropWhile isWsC) = c :: rest := by
      apply dropWhile_of_head
      simp [isWsC]
      omega
    rw [hdw, parseIntAfterWs]
    have hc1 : ¬ c = '-' := by
      intro hc'
      subst hc'
      revert hcn
      decide
    have hc2 : ¬ c = '+' := by
      intro hc'
      subst hc'
      revert hcn
      decide
    rw [if_neg hc1, if_neg hc2, parseDigits]
    have htw : (c :: rest).takeWhile isDigitC = c :: rest :=
      takeWhile_of_all (List.all_eq_true.mp hall)
    simp [htw]

/-- On a name that matches the spec's `checkout-<n>` pattern, the code's
`replace` + `parseInt` scan reads exactly the pattern's numeric suffix. -/
theorem parse_agrees_spec {nm : String} {v : Nat} (h : specSlotNum nm = some v) :
    parseIntChars (replaceFirstChars "checkout-".data nm.data) = some ((v : Nat) : Int) := by
  rw [specSlotNum] at h
  by_cases h1 : ("checkout-".data).isPrefixOf nm.data
  · rw [if_pos h1] at h
    by_cases h2 : nm.data.drop ("checkout-".data).length ≠ [] ∧
        (nm.data.drop ("checkout-".data).length).all isDigitC
    · rw [if_pos h2] at h
      obtain ⟨t, ht⟩ := List.isPrefixOf_iff_prefix.mp h1
      have hds : nm.data.drop ("checkout-".data).length = t := by
        rw [← ht, List.drop_left]
      rw [hds] at h h2
      have hv : digitsVal t = v := Option.some.inj h
      rw [← ht, replaceFirstChars_append, parseIntChars_digits h2.1 h2.2, hv]
    · rw [if_neg h2] at h
      cases h
  · rw [if_neg h1] at h
    cases h

theorem numsOf_eq_of_all_spec {s : Store}
    (hall : ∀ r ∈ s, (specSlotNum r.checkout).isSome = true) :
    numsOf s = (s.filterMap (fun r => specSlotNum r.checkout)).map
      (fun v : Nat => (v : Int)) := by
  induction s with
  | nil => rfl
  | cons a t ih =>
    have ha := hall a (List.mem_cons_self a t)
    obtain ⟨v, hv⟩ := Option.isSome_iff_exists.mp ha
    have h1 : numsOf (a :: t) = ((v : Nat) : Int) :: numsOf t := by
      simp only [numsOf, List.filterMap_cons, parse_agrees_spec hv]
    have h2 : (a :: t).filterMap (fun r => specSlotNum r.checkout) =
        v :: t.filterMap (fun r => specSlotNum r.checkout) := by
      simp only [List.filterMap_cons, hv]
    rw [h1, h2, List.map_cons,
      ih (fun r hr => hall r (List.mem_cons_of_mem a hr))]

theorem foldl_max_cast (vs : List Nat) (v : Nat) :
    (vs.map (fun x : Nat => (x : Int))).foldl max ((v : Nat) : Int) =
      ((vs.foldl max v : Nat) : Int) := by
  induction vs generalizing v with
  | nil => rfl
  | cons b t ih =>
    simp only [List.map_cons, List.foldl_cons]
    rw [← Nat.cast_max, ih]

/-- On a store whose names all match the pattern, the code's next number is the
spec's next number. -/
theorem nextNumOf_eq_spec {s : Store}
    (hall : ∀ r ∈ s, (specSlotNum r.checkout).isSome = true) :
    nextNumOf s = ((specNextNum s : Nat) : Int) := by
  rw [nextNumOf, specNextNum, numsOf_eq_of_all_spec hall]
  cases hsp : s.filterMap (fun r => specSlotNum r.checkout) with
  | nil => rfl
  | cons v vs =>
    show (vs.map (fun x : Nat => (x : Int))).foldl max ((v : Nat) : Int) + 1 =
      ((vs.foldl max v + 1 : Nat) : Int)
    rw [foldl_max_cast]
    omega

theorem intStr_natCast (n : Nat) :
    intStr ((n : Nat) : Int) = String.mk (natDigits n) := by
  rw [intStr, intChars, if_neg (by omega)]
  norm_num

instance : DecidableEq (Except PoolError AcquireResult) := fun a b =>
  match a, b with
  | .ok x, .ok y =>
    if h : x = y then .isTrue (by rw [h]) else .isFalse (by simp [h])
  | .error x, .error y =>
    if h : x = y then .isTrue (by rw [h]) else .isFalse (by simp [h])
  | .ok _, .error _ => .isFalse (by simp)
  | .error _, .ok _ => .isFalse (by simp)

instance : DecidableEq (Except PoolError Unit) := fun a b =>
  match a, b with
  | .ok x, .ok y => .isTrue (by cases x; cases y; rfl)
  | .error x, .error y =>
    if h : x = y then .isTrue (by rw [h]) else .isFalse (by simp [h])
  | .ok _, .error _ => .isFalse (by simp)
  | .error _, .ok _ => .isFalse (by simp)

/-- `find?` by name returns exactly the member with that name, when names are
unique. -/
theorem find?_name_of_mem {s : Store} (hu : uniqNames s) {r : Row} (hr : r ∈ s) :
    s.find? (fun x => x.checkout == r.checkout) = some r := by
  have hsome : (s.find? (fun x => x.checkout == r.checkout)).isSome := by
    rw [List.find?_isSome]
    exact ⟨r, hr, by simp⟩
  obtain ⟨row0, h0⟩ := Option.isSome_iff_exists.mp hsome
  have hmem0 := List.mem_of_find?_eq_some h0
  have hnm0 : row0.checkout = r.checkout := by simpa using List.find?_some h0
  rw [h0, uniq_eq_of_name hu hmem0 hr hnm0]

/-! ## The claims -/

/-- C1. For every sequence of acquire and release operations against one
repository key (no removes), starting from the empty pool, the set of slot
names whose stored status is `locked` equals exactly the set of names returned
by acquire calls not yet matched by a release; and a successful acquire never
returns a slot name that is currently locked in the store, whether it is
bound to the same or to a different repository key. -/
theorem C1_locked_equals_outstanding :
    (∀ home repo ops x,
        x ∈ (runOps home repo ops [] []).2 ↔
          x ∈ lockedNames (runOps home repo ops [] []).1) ∧
    (∀ home repo m pid now ok s s' res, uniqNames s →
        acquireCheckout home repo m pid now ok s = (s', .ok res) →
        res.id ∉ lockedNames s) := by
  constructor
  · intro home repo ops x
    have hbase : TraceInv ([] : Store) ([] : List String) := by
      refine ⟨by decide, List.nodup_nil, ?_⟩
      intro y
      simp [lockedNames]
    exact (runOps_traceInv home repo ops [] [] hbase).2.2 x
  · intro home repo m pid now ok s s' res hu h
    exact (acquire_ok_locked hu h).2.1

theorem C1_witness :
    ("checkout-1" ∈ (runOps "h" "r" [Op.acq none 1 "t" true] [] []).2 ↔
      "checkout-1" ∈ lockedNames (runOps "h" "r" [Op.acq none 1 "t" true] [] []).1) ∧
    ({ id := "checkout-1", directory := "h/.gitproc_pool/checkout-1" } :
        AcquireResult).id ∉ lockedNames ([] : Store) := by
  constructor
  · exact C1_locked_equals_outstanding.1 "h" "r" [Op.acq none 1 "t" true] "checkout-1"
  · exact C1_locked_equals_outstanding.2 "h" "r" none 1 "t" true []
      [{ checkout := "checkout-1", repo := "r", pid := some 1,
         timestamp := some "t", status := "locked" }]
      { id := "checkout-1", directory := "h/.gitproc_pool/checkout-1" }
      (by decide) (by decide)

/-- C2. For every store state and every acquire with `maxCheckouts` set and
positive: if the count of existing rows for the requested repository key
(rows of any status) is at or above the limit, acquire fails with the
capacity-exceeded error and the store is left completely unmodified. -/
theorem C2_capacity_exceeded (home repo : String) (k pid : Int) (now : String)
    (ok : Bool) (s : Store) (hrepo : repo ≠ "") (hk : 0 < k)
    (hcount : k ≤ (countRepo s repo : Int)) :
    acquireCheckout home repo (some k) pid now ok s =
      (s, .error .capacityExceeded) := by
  apply acquire_capacity_eq hrepo
  simp [capacityHit, hk, hcount]

theorem C2_witness :
    acquireCheckout "h" "r" (some 1) 2 "u" true
        [{ checkout := "checkout-1", repo := "r", pid := some 1,
           timestamp := some "t", status := "locked" }] =
      ([{ checkout := "checkout-1", repo := "r", pid := some 1,
          timestamp := some "t", status := "locked" }],
        .error .capacityExceeded) :=
  C2_capacity_exceeded "h" "r" 1 2 "u" true
    [{ checkout := "checkout-1", repo := "r", pid := some 1,
       timestamp := some "t", status := "locked" }]
    (by decide) (by decide) (by decide)

/-- C3, counterexample. The claim computes the next slot number only from
names matching the `checkout-<n>` pattern.  On a store whose single row is
named `"7"` (no match, so the claim prescribes `checkout-1`), the code's
lenient scan parses `7` and returns `checkout-8` instead. -/
theorem C3_counterexample :
    (acquireCheckout "h" "r" none 2 "u" true
        [{ checkout := "7", repo := "other", pid := some 1,
           timestamp := some "t", status := "locked" }]).2 =
      .ok { id := "checkout-8", directory := "h/.gitproc_pool/checkout-8" } ∧
    specNextNum [{ checkout := "7", repo := "other", pid := some 1,
                   timestamp := some "t", status := "locked" }] = 1 ∧
    ("checkout-8" : String) ≠ "checkout-1" := by
  refine ⟨?_, ?_, ?_⟩ <;> decide

/-- C3, amended. For every store state whose existing names all match the
`checkout-<n>` pattern and in which no free slot exists for the requested
repository key, acquire computes the new slot name as `checkout-<n>` where
`n` is one plus the maximum numeric suffix among existing names (`n = 1` when
the store is empty), and inserts the new row already in `locked` status bound
to the requested repository key. -/
theorem C3_next_slot_name (home repo : String) (m : Option Int) (pid : Int)
    (now : String) (s : Store) (hrepo : repo ≠ "")
    (hcap : capacityHit s repo m = false)
    (hfree : findFreeRow s repo = none)
    (hall : ∀ r ∈ s, (specSlotNum r.checkout).isSome = true) :
    acquireCheckout home repo m pid now true s =
      (s ++ [{ checkout := "checkout-" ++ String.mk (natDigits (specNextNum s)),
               repo := repo, pid := some pid, timestamp := some now,
               status := "locked" }],
        .ok { id := "checkout-" ++ String.mk (natDigits (specNextNum s)),
              directory := POOL_DIR home ++ "/" ++
                ("checkout-" ++ String.mk (natDigits (specNextNum s))) }) := by
  have hname : newNameOf s = "checkout-" ++ String.mk (natDigits (specNextNum s)) := by
    rw [newNameOf, nextNumOf_eq_spec hall, intStr_natCast]
  rw [acquire_new_ok_eq hrepo hcap hfree, newRowOf, hname]

theorem C3_witness :
    acquireCheckout "h" "r" none 1 "t" true
        [{ checkout := "checkout-2", repo := "r", pid := some 9,
           timestamp := some "t0", status := "locked" }] =
      ([{ checkout := "checkout-2", repo := "r", pid := some 9,
          timestamp := some "t0", status := "locked" },
        { checkout := "checkout-" ++ String.mk (natDigits (specNextNum
            [{ checkout := "checkout-2", repo := "r", pid := some 9,
               timestamp := some "t0", status := "locked" }])),
          repo := "r", pid := some 1, timestamp := some "t",
          status := "locked" }],
        .ok { id := "checkout-" ++ String.mk (natDigits (specNextNum
            [{ checkout := "checkout-2", repo := "r", pid := some 9,
               timestamp := some "t0", status := "locked" }])),
              directory := POOL_DIR "h" ++ "/" ++
                ("checkout-" ++ String.mk (natDigits (specNextNum
                  [{ checkout := "checkout-2", repo := "r", pid := some 9,
                     timestamp := some "t0", status := "locked" }]))) }) :=
  C3_next_slot_name "h" "r" none 1 "t"
    [{ checkout := "checkout-2", repo := "r", pid := some 9,
       timestamp := some "t0", status := "locked" }]
    (by decide) (by decide) (by decide) (by decide)

/-- C4. For every store state containing at least one free row for the
requested repository key (and a passing capacity guard), acquire locks such a
row in place: it stamps `pid` and `timestamp`, returns that slot's existing
directory path, inserts no new row, and the result does not depend on the
provisioning outcome (no mirror or worktree work).  Consequently (scenario B),
acquire then release then acquire on an empty pool reuses `checkout-1` and
leaves a single row. -/
theorem C4_acquire_reuses_free_slot :
    (∀ home repo m pid now s, repo ≠ "" → capacityHit s repo m = false →
      (∃ r ∈ s, r.repo = repo ∧ r.status = "free") →
      ∃ row ∈ s, row.repo = repo ∧ row.status = "free" ∧
        (∀ ok, acquireCheckout home repo m pid now ok s =
          (lockRow pid now row.checkout s,
            .ok { id := row.checkout,
                  directory := POOL_DIR home ++ "/" ++ row.checkout })) ∧
        (lockRow pid now row.checkout s).length = s.length ∧
        ∃ r' ∈ lockRow pid now row.checkout s, r'.checkout = row.checkout ∧
          r'.status = "locked" ∧ r'.pid = some pid ∧ r'.timestamp = some now ∧
          r'.repo = row.repo) ∧
    (∀ home repo pid1 now1 pid2 now2, repo ≠ "" →
      (acquireCheckout home repo none pid1 now1 true []).2 =
        .ok { id := "checkout-1",
              directory := POOL_DIR home ++ "/" ++ "checkout-1" } ∧
      (releaseCheckout "checkout-1"
          (acquireCheckout home repo none pid1 now1 true []).1).2 = .ok () ∧
      (acquireCheckout home repo none pid2 now2 true
          (releaseCheckout "checkout-1"
            (acquireCheckout home repo none pid1 now1 true []).1).1).2 =
        .ok { id := "checkout-1",
              directory := POOL_DIR home ++ "/" ++ "checkout-1" } ∧
      (acquireCheckout home repo none pid2 now2 true
          (releaseCheckout "checkout-1"
            (acquireCheckout home repo none pid1 now1 true []).1).1).1.length = 1) := by
  constructor
  · rintro home repo m pid now s hrepo hcap ⟨r, hr, hrp, hst⟩
    obtain ⟨row, hfind⟩ := findFreeRow_of_free hr hrp hst
    obtain ⟨hmem, hrepo', hfree'⟩ := findFreeRow_some hfind
    refine ⟨row, hmem, hrepo', hfree',
      fun ok => acquire_reuse_eq hrepo hcap hfind, ?_, ?_⟩
    · simp [lockRow]
    · refine ⟨_, List.mem_map_of_mem _ hmem, ?_, ?_, ?_, ?_, ?_⟩ <;> simp
  · intro home repo pid1 now1 pid2 now2 hrepo
    have h1 : acquireCheckout home repo none pid1 now1 true ([] : Store) =
        (([] : Store) ++ [newRowOf repo pid1 now1 []],
          .ok { id := newNameOf ([] : Store),
                directory := POOL_DIR home ++ "/" ++ newNameOf ([] : Store) }) :=
      acquire_new_ok_eq hrepo rfl rfl
    have hname : newNameOf ([] : Store) = "checkout-1" := by decide
    have hrow : newRowOf repo pid1 now1 ([] : Store) =
        { checkout := "checkout-1", repo := repo, pid := some pid1,
          timestamp := some now1, status := "locked" } := by
      rw [newRowOf, hname]
    rw [hname, hrow, List.nil_append] at h1
    have h2 : releaseCheckout "checkout-1"
        [{ checkout := "checkout-1", repo := repo, pid := some pid1,
           timestamp := some now1, status := "locked" : Row }] =
        ([{ checkout := "checkout-1", repo := repo, pid := none,
            timestamp := none, status := "free" }], .ok ()) := rfl
    have hfind3 : findFreeRow
        [{ checkout := "checkout-1", repo := repo, pid := none,
           timestamp := none, status := "free" : Row }] repo =
        some { checkout := "checkout-1", repo := repo, pid := none,
               timestamp := none, status := "free" } := by
      rw [findFreeRow]
      apply List.find?_cons_of_pos
      simp
    have h3 : acquireCheckout home repo none pid2 now2 true
        [{ checkout := "checkout-1", repo := repo, pid := none,
           timestamp := none, status := "free" : Row }] =
        (lockRow pid2 now2 "checkout-1"
            [{ checkout := "checkout-1", repo := repo, pid := none,
               timestamp := none, status := "free" }],
          .ok { id := "checkout-1",
                directory := POOL_DIR home ++ "/" ++ "checkout-1" }) :=
      acquire_reuse_eq hrepo (by rfl) hfind3
    rw [h1]
    refine ⟨rfl, ?_, ?_, ?_⟩
    · rw [h2]
    · rw [h2, h3]
    · rw [h2, h3]
      simp [lockRow]

theorem C4_witness :
    (∃ row ∈ ([{ checkout := "checkout-1", repo := "r", pid := none,
                 timestamp := none, status := "free" }] : Store),
      row.repo = "r" ∧ row.status = "free" ∧
      (∀ ok, acquireCheckout "h" "r" none 5 "t2" ok
          [{ checkout := "checkout-1", repo := "r", pid := none,
             timestamp := none, status := "free" }] =
        (lockRow 5 "t2" row.checkout
            [{ checkout := "checkout-1", repo := "r", pid := none,
               timestamp := none, status := "free" }],
          .ok { id := row.checkout,
                directory := POOL_DIR "h" ++ "/" ++ row.checkout })) ∧
      (lockRow 5 "t2" row.checkout
          [{ checkout := "checkout-1", repo := "r", pid := none,
             timestamp := none, status := "free" }]).length =
        ([{ checkout := "checkout-1", repo := "r", pid := none,
            timestamp := none, status := "free" }] : Store).length ∧
      ∃ r' ∈ lockRow 5 "t2" row.checkout
          [{ checkout := "checkout-1", repo := "r", pid := none,
             timestamp := none, status := "free" }],
        r'.checkout = row.checkout ∧ r'.status = "locked" ∧
          r'.pid = some 5 ∧ r'.timestamp = some "t2" ∧ r'.repo = row.repo) ∧
    ((acquireCheckout "h" "r" none 1 "t" true []).2 =
        .ok { id := "checkout-1",
              directory := POOL_DIR "h" ++ "/" ++ "checkout-1" } ∧
      (releaseCheckout "checkout-1"
          (acquireCheckout "h" "r" none 1 "t" true []).1).2 = .ok () ∧
      (acquireCheckout "h" "r" none 2 "u" true
          (releaseCheckout "checkout-1"
            (acquireCheckout "h" "r" none 1 "t" true []).1).1).2 =
        .ok { id := "checkout-1",
              directory := POOL_DIR "h" ++ "/" ++ "checkout-1" } ∧
      (acquireCheckout "h" "r" none 2 "u" true
          (releaseCheckout "checkout-1"
            (acquireCheckout "h" "r" none 1 "t" true []).1).1).1.length = 1) :=
  ⟨C4_acquire_reuses_free_slot.1 "h" "r" none 5 "t2"
      [{ checkout := "checkout-1", repo := "r", pid := none,
         timestamp := none, status := "free" }]
      (by decide) (by decide) (by decide),
    C4_acquire_reuses_free_slot.2 "h" "r" 1 "t" 2 "u" (by decide)⟩

/-- C5. For every new-slot acquire whose filesystem provisioning step fails
after the row was committed, acquire deletes that committed row again and
fails with the provisioning error; the resulting store is the original one
and contains no row for the generated slot name. -/
theorem C5_provisioning_failure_cleanup (home repo : String) (m : Option Int)
    (pid : Int) (now : String) (s : Store) (hrepo : repo ≠ "")
    (hcap : capacityHit s repo m = false)
    (hfree : findFreeRow s repo = none) :
    acquireCheckout home repo m pid now false s =
      (s, .error .provisioningFailed) ∧
    ∀ r ∈ (acquireCheckout home repo m pid now false s).1,
      r.checkout ≠ newNameOf s := by
  have h : acquireCheckout home repo m pid now false s =
      (s, .error .provisioningFailed) := acquire_new_fail_eq hrepo hcap hfree
  refine ⟨h, ?_⟩
  rw [h]
  intro r hr
  exact newNameOf_fresh hr

theorem C5_witness :
    (acquireCheckout "h" "r" none 1 "t" false [] =
      ([], .error .provisioningFailed)) ∧
    ∀ r ∈ (acquireCheckout "h" "r" none 1 "t" false []).1,
      r.checkout ≠ newNameOf ([] : Store) :=
  C5_provisioning_failure_cleanup "h" "r" none 1 "t" []
    (by decide) (by decide) (by decide)

/-- C6. For every nonempty slot name: release succeeds exactly when a row for
that name exists with status `locked`, in which case it transitions the row to
`free` and clears both `pid` and `timestamp`; it fails with `notFound` when no
row exists and with `notLocked` when the row is already `free`, and in both
failure cases the store is unchanged. -/
theorem C6_release_lifecycle (n : String) (s : Store) (hn : n ≠ "")
    (hu : uniqNames s) :
    ((releaseCheckout n s).2 = .ok () ↔
      ∃ r ∈ s, r.checkout = n ∧ r.status = "locked") ∧
    ((∃ r ∈ s, r.checkout = n ∧ r.status = "locked") →
      releaseCheckout n s = (unlockRow n s, .ok ()) ∧
      ∃ r' ∈ unlockRow n s, r'.checkout = n ∧ r'.status = "free" ∧
        r'.pid = none ∧ r'.timestamp = none) ∧
    ((¬ ∃ r ∈ s, r.checkout = n) →
      releaseCheckout n s = (s, .error .notFound)) ∧
    ((∃ r ∈ s, r.checkout = n ∧ r.status = "free") →
      releaseCheckout n s = (s, .error .notLocked)) := by
  have main2 : (∃ r ∈ s, r.checkout = n ∧ r.status = "locked") →
      releaseCheckout n s = (unlockRow n s, .ok ()) := by
    rintro ⟨r, hr, hnm, hlk⟩
    have hf : s.find? (fun x => x.checkout == n) = some r := by
      have hfr := find?_name_of_mem hu hr
      rw [hnm] at hfr
      exact hfr
    exact release_ok_eq hn hf hlk
  refine ⟨⟨?_, ?_⟩, ?_, ?_, ?_⟩
  · intro hok
    cases hp : releaseCheckout n s with
    | mk s' e =>
      rw [hp] at hok
      simp at hok
      subst hok
      obtain ⟨row, -, hfind, hlk, -⟩ := release_ok_inv hp
      exact ⟨row, List.mem_of_find?_eq_some hfind,
        by simpa using List.find?_some hfind, hlk⟩
  · intro hex
    rw [main2 hex]
  · intro hex
    refine ⟨main2 hex, ?_⟩
    obtain ⟨r, hr, hnm, -⟩ := hex
    refine ⟨_, List.mem_map_of_mem _ hr, ?_, ?_, ?_, ?_⟩ <;> simp [hnm]
  · intro hne
    have hfnone : s.find? (fun x => x.checkout == n) = none := by
      rw [List.find?_eq_none]
      intro x hx
      simp only [beq_iff_eq]
      intro h
      exact hne ⟨x, hx, h⟩
    exact release_notFound_eq hn hfnone
  · rintro ⟨r, hr, hnm, hfr⟩
    have hf : s.find? (fun x => x.checkout == n) = some r := by
      have hf0 := find?_name_of_mem hu hr
      rw [hnm] at hf0
      exact hf0
    apply release_notLocked_eq hn hf
    rw [hfr]
    decide

theorem C6_witness :
    (((releaseCheckout "checkout-1"
        [{ checkout := "checkout-1", repo := "r", pid := some 1,
           timestamp := some "t", status := "locked" }]).2 = .ok ()) ↔
      ∃ r ∈ ([{ checkout := "checkout-1", repo := "r", pid := some 1,
                timestamp := some "t", status := "locked" }] : Store),
        r.checkout = "checkout-1" ∧ r.status = "locked") ∧
    ((∃ r ∈ ([{ checkout := "checkout-1", repo := "r", pid := some 1,
                timestamp := some "t", status := "locked" }] : Store),
        r.checkout = "checkout-1" ∧ r.status = "locked") →
      releaseCheckout "checkout-1"
          [{ checkout := "checkout-1", repo := "r", pid := some 1,
             timestamp := some "t", status := "locked" }] =
        (unlockRow "checkout-1"
          [{ checkout := "checkout-1", repo := "r", pid := some 1,
             timestamp := some "t", status := "locked" }], .ok ()) ∧
      ∃ r' ∈ unlockRow "checkout-1"
          [{ checkout := "checkout-1", repo := "r", pid := some 1,
             timestamp := some "t", status := "locked" }],
        r'.checkout = "checkout-1" ∧ r'.status = "free" ∧
          r'.pid = none ∧ r'.timestamp = none) ∧
    ((¬ ∃ r ∈ ([{ checkout := "checkout-1", repo := "r", pid := some 1,
                  timestamp := some "t", status := "locked" }] : Store),
        r.checkout = "checkout-1") →
      releaseCheckout "checkout-1"
          [{ checkout := "checkout-1", repo := "r", pid := some 1,
             timestamp := some "t", status := "locked" }] =
        ([{ checkout := "checkout-1", repo := "r", pid := some 1,
            timestamp := some "t", status := "locked" }], .error .notFound)) ∧
    ((∃ r ∈ ([{ checkout := "checkout-1", repo := "r", pid := some 1,
                timestamp := some "t", status := "locked" }] : Store),
        r.checkout = "checkout-1" ∧ r.status = "free") →
      releaseCheckout "checkout-1"
          [{ checkout := "checkout-1", repo := "r", pid := some 1,
             timestamp := some "t", status := "locked" }] =
        ([{ checkout := "checkout-1", repo := "r", pid := some 1,
            timestamp := some "t", status := "locked" }], .error .notLocked)) :=
  C6_release_lifecycle "checkout-1"
    [{ checkout := "checkout-1", repo := "r", pid := some 1,
       timestamp := some "t", status := "locked" }]
    (by decide) (by decide)

/-- C7. For every nonempty slot name: remove succeeds for every existing row
regardless of its status (it deletes the row even when the slot is `locked`),
fails with `notFound` when no row exists (leaving the store unchanged), and
after a successful remove the slot name never appears in the output of
`listCheckouts`. -/
theorem C7_remove_teardown (n : String) (s : Store) (hn : n ≠ "") :
    ((∃ r ∈ s, r.checkout = n) →
      removeCheckout n s = (s.filter (fun r => !(r.checkout == n)), .ok ()) ∧
      ∀ r' ∈ listCheckouts (removeCheckout n s).1, r'.checkout ≠ n) ∧
    ((¬ ∃ r ∈ s, r.checkout = n) →
      removeCheckout n s = (s, .error .notFound)) := by
  constructor
  · rintro ⟨r, hr, hnm⟩
    have hany : s.any (fun r => r.checkout == n) = true := by
      rw [List.any_eq_true]
      exact ⟨r, hr, by simp [hnm]⟩
    have heq := remove_ok_eq hn hany
    refine ⟨heq, ?_⟩
    rw [heq]
    intro r' hr'
    rw [listCheckouts] at hr'
    obtain ⟨r0, hr0, rfl⟩ := List.mem_map.mp hr'
    have hkeep := (List.mem_filter.mp hr0).2
    simp at hkeep
    simpa using hkeep
  · intro hne
    have hany : s.any (fun r => r.checkout == n) = false := by
      rw [List.any_eq_false]
      intro x hx
      simp only [beq_iff_eq]
      intro h
      exact hne ⟨x, hx, h⟩
    exact remove_notFound_eq hn hany

theorem C7_witness :
    ((∃ r ∈ ([{ checkout := "checkout-1", repo := "r", pid := some 1,
                timestamp := some "t", status := "locked" }] : Store),
        r.checkout = "checkout-1") →
      removeCheckout "checkout-1"
          [{ checkout := "checkout-1", repo := "r", pid := some 1,
             timestamp := some "t", status := "locked" }] =
        (([{ checkout := "checkout-1", repo := "r", pid := some 1,
             timestamp := some "t", status := "locked" }] : Store).filter
          (fun r => !(r.checkout == "checkout-1")), .ok ()) ∧
      ∀ r' ∈ listCheckouts (removeCheckout "checkout-1"
          [{ checkout := "checkout-1", repo := "r", pid := some 1,
             timestamp := some "t", status := "locked" }]).1,
        r'.checkout ≠ "checkout-1") ∧
    ((¬ ∃ r ∈ ([{ checkout := "checkout-1", repo := "r", pid := some 1,
                  timestamp := some "t", status := "locked" }] : Store),
        r.checkout = "checkout-1") →
      removeCheckout "checkout-1"
          [{ checkout := "checkout-1", repo := "r", pid := some 1,
             timestamp := some "t", status := "locked" }] =
        ([{ checkout := "checkout-1", repo := "r", pid := some 1,
            timestamp := some "t", status := "locked" }], .error .notFound)) :=
  C7_remove_teardown "checkout-1"
    [{ checkout := "checkout-1", repo := "r", pid := some 1,
       timestamp := some "t", status := "locked" }]
    (by decide)

/-- C8. Every operation preserves the row invariant (at most one row per name;
`locked` rows carry `pid` and `timestamp`; `free` rows carry neither) and
never modifies the repository key of a surviving row. -/
theorem C8_operations_preserve_invariant (home repo : String) (m : Option Int)
    (pid : Int) (now : String) (ok : Bool) (n : String) (s : Store)
    (hinv : Inv s) :
    (Inv (acquireCheckout home repo m pid now ok s).1 ∧
      repoStable s (acquireCheckout home repo m pid now ok s).1) ∧
    (Inv (releaseCheckout n s).1 ∧ repoStable s (releaseCheckout n s).1) ∧
    (Inv (removeCheckout n s).1 ∧ repoStable s (removeCheckout n s).1) :=
  ⟨acquire_preserves_inv hinv, release_preserves_inv hinv,
    remove_preserves_inv hinv⟩

theorem C8_witness :
    (Inv (acquireCheckout "h" "r" none 1 "t" true
        [{ checkout := "checkout-1", repo := "r", pid := none,
           timestamp := none, status := "free" }]).1 ∧
      repoStable
        [{ checkout := "checkout-1", repo := "r", pid := none,
           timestamp := none, status := "free" }]
        (acquireCheckout "h" "r" none 1 "t" true
          [{ checkout := "checkout-1", repo := "r", pid := none,
             timestamp := none, status := "free" }]).1) ∧
    (Inv (releaseCheckout "checkout-1"
        [{ checkout := "checkout-1", repo := "r", pid := none,
           timestamp := none, status := "free" }]).1 ∧
      repoStable
        [{ checkout := "checkout-1", repo := "r", pid := none,
           timestamp := none, status := "free" }]
        (releaseCheckout "checkout-1"
          [{ checkout := "checkout-1", repo := "r", pid := none,
             timestamp := none, status := "free" }]).1) ∧
    (Inv (removeCheckout "checkout-1"
        [{ checkout := "checkout-1", repo := "r", pid := none,
           timestamp := none, status := "free" }]).1 ∧
      repoStable
        [{ checkout := "checkout-1", repo := "r", pid := none,
           timestamp := none, status := "free" }]
        (removeCheckout "checkout-1"
          [{ checkout := "checkout-1", repo := "r", pid := none,
             timestamp := none, status := "free" }]).1) :=
  C8_operations_preserve_invariant "h" "r" none 1 "t" true "checkout-1"
    [{ checkout := "checkout-1", repo := "r", pid := none,
       timestamp := none, status := "free" }]
    (by decide)

/-- C9, counterexample. A slot name can be reassigned after removal: starting
from the empty pool, acquire returns `checkout-1`; after removing it, the next
acquire returns `checkout-1` again, because the scan takes the maximum over
the names still present. -/
theorem C9_counterexample :
    (acquireCheckout "h" "r" none 1 "t" true []).2 =
      .ok { id := "checkout-1", directory := "h/.gitproc_pool/checkout-1" } ∧
    (removeCheckout "checkout-1"
        (acquireCheckout "h" "r" none 1 "t" true []).1).2 = .ok () ∧
    (acquireCheckout "h" "r" none 2 "u" true
        (removeCheckout "checkout-1"
          (acquireCheckout "h" "r" none 1 "t" true []).1).1).2 =
      .ok { id := "checkout-1", directory := "h/.gitproc_pool/checkout-1" } := by
  refine ⟨?_, ?_, ?_⟩ <;> decide

/-- C9, amended. Slot names are monotone with respect to the current store:
a new-slot acquire (no free row for the key) returns a name whose parsed
number strictly exceeds every number parsed from any name currently stored.
A removed name can therefore be assigned again only once no row with an equal
or greater number remains (as the counterexample shows for the maximal name). -/
theorem C9_new_name_monotone (home repo : String) (m : Option Int) (pid : Int)
    (now : String) (ok : Bool) (s s' : Store) (res : AcquireResult)
    (hfree : findFreeRow s repo = none)
    (h : acquireCheckout home repo m pid now ok s = (s', .ok res)) :
    ∃ k : Int,
      parseIntChars (replaceFirstChars "checkout-".data res.id.data) = some k ∧
      ∀ r ∈ s, ∀ v,
        parseIntChars (replaceFirstChars "checkout-".data r.checkout.data) =
          some v → v < k := by
  obtain ⟨-, -, hcase⟩ := acquire_ok_inv h
  rcases hcase with ⟨row, hfind, -, -, -⟩ | ⟨-, -, hid, -, -⟩
  · rw [hfree] at hfind
    cases hfind
  · refine ⟨nextNumOf s, ?_, ?_⟩
    · rw [hid]
      exact parseNum_newName s
    · intro r hr v hv
      apply lt_nextNumOf
      rw [numsOf, List.mem_filterMap]
      exact ⟨r, hr, hv⟩

theorem C9_witness :
    ∃ k : Int,
      parseIntChars (replaceFirstChars "checkout-".data
        ({ id := "checkout-3", directory := "h/.gitproc_pool/checkout-3" } :
          AcquireResult).id.data) = some k ∧
      ∀ r ∈ ([{ checkout := "checkout-2", repo := "r", pid := some 1,
                timestamp := some "t", status := "locked" }] : Store), ∀ v,
        parseIntChars (replaceFirstChars "checkout-".data r.checkout.data) =
          some v → v < k :=
  C9_new_name_monotone "h" "r" none 1 "t" true
    [{ checkout := "checkout-2", repo := "r", pid := some 1,
       timestamp := some "t", status := "locked" }]
    [{ checkout := "checkout-2", repo := "r", pid := some 1,
       timestamp := some "t", status := "locked" },
     { checkout := "checkout-3", repo := "r", pid := some 1,
       timestamp := some "t", status := "locked" }]
    { id := "checkout-3", directory := "h/.gitproc_pool/checkout-3" }
    (by decide) (by decide)

/-- C10. Every successful acquire for a repository key returns a slot whose
stored row is bound to exactly that key and is locked with the caller's pid
and timestamp, and the returned directory path is exactly the pool directory
joined with the returned slot name. -/
theorem C10_result_binding {home repo : String} {m : Option Int} {pid : Int}
    {now : String} {ok : Bool} {s s' : Store} {res : AcquireResult}
    (h : acquireCheckout home repo m pid now ok s = (s', .ok res)) :
    (∃ r' ∈ s', r'.checkout = res.id ∧ r'.repo = repo ∧
      r'.status = "locked" ∧ r'.pid = some pid ∧ r'.timestamp = some now) ∧
    res.directory = POOL_DIR home ++ "/" ++ res.id := by
  obtain ⟨-, -, hcase⟩ := acquire_ok_inv h
  rcases hcase with ⟨row, hfind, hid, hs', hdir⟩ | ⟨-, -, hid, hs', hdir⟩
  · obtain ⟨hmem, hrepo, -⟩ := findFreeRow_some hfind
    subst hs'
    rw [hid, hdir]
    refine ⟨⟨_, List.mem_map_of_mem _ hmem, ?_, ?_, ?_, ?_, ?_⟩, rfl⟩ <;>
      simp [hrepo]
  · subst hs'
    rw [hid, hdir]
    refine ⟨⟨newRowOf repo pid now s,
      List.mem_append_right _ (by simp), ?_, ?_, ?_, ?_, ?_⟩, rfl⟩ <;>
      simp [newRowOf]

theorem C10_witness :
    (∃ r' ∈ ([{ checkout := "checkout-1", repo := "r", pid := some 1,
                timestamp := some "t", status := "locked" }] : Store),
      r'.checkout = ({ id := "checkout-1",
                       directory := "h/.gitproc_pool/checkout-1" } :
                      AcquireResult).id ∧
      r'.repo = "r" ∧ r'.status = "locked" ∧ r'.pid = some 1 ∧
      r'.timestamp = some "t") ∧
    ({ id := "checkout-1", directory := "h/.gitproc_pool/checkout-1" } :
      AcquireResult).directory =
      POOL_DIR "h" ++ "/" ++ ({ id := "checkout-1",
                                directory := "h/.gitproc_pool/checkout-1" } :
                               AcquireResult).id :=
  @C10_result_binding "h" "r" none 1 "t" true []
    [{ checkout := "checkout-1", repo := "r", pid := some 1,
       timestamp := some "t", status := "locked" }]
    { id := "checkout-1", directory := "h/.gitproc_pool/checkout-1" }
    (by decide)

end Gitproc
